import Mathlib

/-!
# Verification of the ADB adapter core (adbClient.ts / appManager.ts)

A shallow embedding of the command executor, the output parsers and the
target-app selection logic of the `adb-pro` VS Code extension, together
with theorems settling the specification's claims about them.

Conventions of the embedding:
* A JavaScript string is a Lean `String`; per-character operations work on
  its `data` list of characters.
* The child process outcome of `execAsync` is the inductive `ProcResult`:
  either a resolution carrying `stdout`/`stderr`, or a rejection carrying
  the error message.  Thrown JS exceptions are `Except.error`.
* `undefined` is `Option.none`; JS truthiness of an optional string is
  `jsOptFalsy` (both `undefined` and the empty string are falsy).
-/

/-- The whitespace class used by JavaScript's `String.prototype.trim` and
the regex `\s` (restricted to the ASCII range, which is all that ADB
output contains). -/
def isJsWs (c : Char) : Bool :=
  c = ' ' || c = '\t' || c = '\n' || c = '\r' || c = '\x0b' || c = '\x0c'

/-- JavaScript `s.trim()`: removes whitespace from both ends (the suffix
first, then the prefix; the order is immaterial). -/
def jsTrim (s : String) : String :=
  ⟨((s.data.reverse.dropWhile isJsWs).reverse).dropWhile isJsWs⟩

/-- The spec's words: "standard output with trailing whitespace removed"
(suffix only).  Kept separate from `jsTrim`, which models the source's
`trim()`, so the two can be compared. -/
def stripTrailingWS (s : String) : String :=
  ⟨(s.data.reverse.dropWhile isJsWs).reverse⟩

/-- Leading-whitespace removal, the other half of two-sided trimming. -/
def stripLeadingWS (s : String) : String :=
  ⟨s.data.dropWhile isJsWs⟩

/-- `String.prototype.split` with a single-character separator, on the
character list.  `split` never returns an empty array: the empty string
yields `[[]]`. -/
def splitCharL (sep : Char) : List Char → List (List Char)
  | [] => [[]]
  | c :: cs =>
    match splitCharL sep cs with
    | [] => [[]]
    | l :: ls => if c = sep then [] :: l :: ls else (c :: l) :: ls

/-- JavaScript `s.split(sep)` for a one-character separator (the source
only ever splits on `'\n'`). -/
def jsSplit (sep : Char) (s : String) : List String :=
  (splitCharL sep s.data).map String.mk

/-- Worker for `split(/\s+/)`: a maximal run of whitespace is one
separator.  `inSep` records whether the previous character belonged to a
whitespace run already accounted for. -/
def splitWsGo : Bool → List Char → List (List Char)
  | _, [] => [[]]
  | inSep, c :: cs =>
    if isJsWs c then
      if inSep then splitWsGo true cs else [] :: splitWsGo true cs
    else
      match splitWsGo false cs with
      | [] => [[c]]
      | l :: ls => (c :: l) :: ls

/-- JavaScript `s.split(/\s+/)`: fields between maximal whitespace runs,
with an empty field at an end that starts or ends with whitespace. -/
def jsSplitWs (s : String) : List String :=
  (splitWsGo false s.data).map String.mk

/-- JavaScript `s.startsWith(pre)`. -/
def startsWithS (s pre : String) : Bool :=
  pre.data.isPrefixOf s.data

/-- Remove the first occurrence of `pat` from a character list (JavaScript
`replace(pat, '')` with a string pattern replaces only the first
occurrence, with an empty replacement here). -/
def replaceFirstL (pat : List Char) : List Char → List Char
  | [] => []
  | c :: cs =>
    if pat.isPrefixOf (c :: cs) then (c :: cs).drop pat.length
    else c :: replaceFirstL pat cs

/-- JavaScript `s.replace(pat, '')` for a string pattern. -/
def jsReplaceFirst (pat : String) (s : String) : String :=
  ⟨replaceFirstL pat.data s.data⟩

/-- Lexicographic comparison of character lists by code point: the order
JavaScript's default `Array.prototype.sort` applies to strings (for the
ASCII package and permission names of ADB output, code-unit order and
code-point order agree). -/
def charListLe : List Char → List Char → Bool
  | [], _ => true
  | _ :: _, [] => false
  | a :: as, b :: bs => if a = b then charListLe as bs else decide (a < b)

/-- Lexicographic string comparison, the sort key of the source's two
sorts (`Array.prototype.sort()` on package names, `localeCompare` on
permission names). -/
def strLe (a b : String) : Bool := charListLe a.data b.data

/-- `strLe` as a relation, for `List.insertionSort`. -/
def strLeP (a b : String) : Prop := strLe a b = true

instance : DecidableRel strLeP :=
  fun a b => inferInstanceAs (Decidable (strLe a b = true))

theorem charListLe_total : ∀ a b, charListLe a b = true ∨ charListLe b a = true
  | [], _ => Or.inl rfl
  | _ :: _, [] => Or.inr rfl
  | a :: as, b :: bs => by
    by_cases hab : a = b
    · subst hab
      simpa [charListLe] using charListLe_total as bs
    · rcases lt_or_gt_of_ne hab with h | h
      · exact Or.inl (by simp [charListLe, hab, h])
      · exact Or.inr (by simp [charListLe, Ne.symm hab, h])

theorem charListLe_trans :
    ∀ a b c, charListLe a b = true → charListLe b c = true →
      charListLe a c = true
  | [], _, _, _, _ => rfl
  | _ :: _, [], _, h, _ => by simp [charListLe] at h
  | _ :: _, _ :: _, [], _, h => by simp [charListLe] at h
  | a :: as, b :: bs, c :: cs, h₁, h₂ => by
    by_cases hab : a = b <;> by_cases hbc : b = c
    · subst hab; subst hbc
      simp only [charListLe, if_pos rfl] at h₁ h₂ ⊢
      exact charListLe_trans as bs cs h₁ h₂
    · subst hab
      simpa [charListLe, hbc] using h₂
    · subst hbc
      simpa [charListLe, hab] using h₁
    · simp only [charListLe, if_neg hab] at h₁
      simp only [charListLe, if_neg hbc] at h₂
      have hac : a < c := lt_trans (of_decide_eq_true h₁) (of_decide_eq_true h₂)
      simp [charListLe, ne_of_lt hac, hac]

instance : IsTotal String strLeP :=
  ⟨fun a b => charListLe_total a.data b.data⟩

instance : IsTrans String strLeP :=
  ⟨fun a b c => charListLe_trans a.data b.data c.data⟩

/-- Outcome of `execAsync(fullCommand)`: a resolved child process carrying
its captured `stdout` and `stderr`, or a rejection (non-zero exit or spawn
failure) carrying the error message. -/
inductive ProcResult where
  | ok (stdout stderr : String)
  | fail (message : String)

/-- `AdbClient.execute`: builds the full command line, runs the tool, logs
every invocation and its output to the output channel (the returned list
of appended lines), returns trimmed stdout on success and throws
`ADB Error: <message>` on failure.  `if (stdout)` / `if (stderr)` are JS
truthiness tests: a string is truthy iff it is nonempty. -/
def execute (adbPath command : String) (r : ProcResult) :
    Except String String × List String :=
  let fullCommand := adbPath ++ " " ++ command
  match r with
  | .ok stdout stderr =>
    (Except.ok (jsTrim stdout),
      ["> " ++ fullCommand]
        ++ (if stdout ≠ "" then [stdout] else [])
        ++ (if stderr ≠ "" then ["stderr: " ++ stderr] else []))
  | .fail message =>
    (Except.error ("ADB Error: " ++ message),
      ["> " ++ fullCommand, "Error: " ++ message])

/-- The `ConnectedDevice` record of adbClient.ts: the destructuring
`const [id, type] = line.split(/\s+/)` leaves `type` `undefined` when the
row has a single token, so its field is optional here.  The interface has
no further fields: in particular no connection medium and no model name. -/
structure ConnectedDevice where
  id : String
  type : Option String
deriving DecidableEq, Repr

/-- `AdbClient.getConnectedDevices`, applied to the outcome of
`execute('devices')`: drop the header line, trim, drop blank lines, and
split each remaining row on whitespace into identifier and state. -/
def getConnectedDevices (r : Except String String) :
    Except String (List ConnectedDevice) :=
  r.map fun output =>
    (((jsSplit '\n' output).drop 1).map jsTrim
        |>.filter fun line => decide (0 < line.data.length)).map fun line =>
      let fields := jsSplitWs line
      { id := fields.headD "", type := fields[1]? }

/-- `AdbClient.getPidForPackage`, applied to the outcome of the `pidof`
invocation: on success the first whitespace-delimited token of the
trimmed output, on a caught execution failure `undefined`. -/
def getPidForPackage (r : Except String String) : Option String :=
  match r with
  | .error _ => none
  | .ok output => some ((jsSplitWs (jsTrim output)).headD "")

/-- JS truthiness of an optional string: `undefined` and `''` are falsy.
This is the test the only caller (`if (!pid)` in extension.ts) applies to
decide the "not found" outcome. -/
def jsOptFalsy : Option String → Bool
  | none => true
  | some s => s = ""

/-- `AdbClient.getInstalledPackages`, applied to the outcome of
`pm list packages -3`: keep trimmed lines starting with `package:`, strip
that prefix (first occurrence, as JS `replace` does), sort with the
default string order. -/
def getInstalledPackages (r : Except String String) :
    Except String (List String) :=
  r.map fun output =>
    ((((jsSplit '\n' output).map jsTrim).filter
        fun line => startsWithS line "package:").map
      (jsReplaceFirst "package:")).insertionSort strLeP

/-- One permission record of `getAppPermissions`. -/
structure AppPermission where
  name : String
  granted : Bool
deriving DecidableEq, Repr

/-- The regex `^([^:]+):\s*granted=(true|false)` applied to a trimmed
line: a nonempty colon-free name, the colon, optional whitespace, then
the literal `granted=` followed by `true` or `false` (trailing text is
allowed, the pattern is not anchored at the end). -/
def matchPermLine (trimmed : String) : Option (String × Bool) :=
  let name := trimmed.data.takeWhile fun c => c ≠ ':'
  match trimmed.data.dropWhile fun c => c ≠ ':' with
  | [] => none
  | _ :: rest =>
    if name.length = 0 then none
    else
      let after := rest.dropWhile isJsWs
      if "granted=true".data.isPrefixOf after then some (⟨name⟩, true)
      else if "granted=false".data.isPrefixOf after then some (⟨name⟩, false)
      else none

/-- The single-pass stateful line scanner of `getAppPermissions`: a
trimmed line starting with `runtime permissions:` enters the section (and
is consumed by `continue`); inside the section a matching line appends a
record, an empty line leaves the section, any other line is skipped.
(The source's indentation check at lines 210-215 has an empty body and is
dead code.) -/
def permScan : List String → Bool → List AppPermission → List AppPermission
  | [], _, acc => acc
  | line :: rest, inSection, acc =>
    let trimmed := jsTrim line
    if startsWithS trimmed "runtime permissions:" then
      permScan rest true acc
    else if inSection then
      match matchPermLine trimmed with
      | some (n, g) => permScan rest inSection (acc ++ [⟨n, g⟩])
      | none =>
        if trimmed = "" then permScan rest false acc
        else permScan rest inSection acc
    else
      permScan rest inSection acc

/-- The comparison `a.name.localeCompare(b.name)` used by the final sort,
read as the string order on permission names. -/
def permLe (a b : AppPermission) : Prop := strLeP a.name b.name

instance : DecidableRel permLe :=
  fun a b => inferInstanceAs (Decidable (strLeP a.name b.name))

instance : IsTotal AppPermission permLe :=
  ⟨fun a b => charListLe_total a.name.data b.name.data⟩

instance : IsTrans AppPermission permLe :=
  ⟨fun a b c => charListLe_trans a.name.data b.name.data c.name.data⟩

/-- `AdbClient.getAppPermissions`, applied to the outcome of the
`dumpsys package` invocation.  The whole body sits in a `try` block whose
`catch` returns the empty list, so the function yields a value on every
input; the `Except` codomain records that no exception propagates. -/
def getAppPermissions (r : Except String String) :
    Except String (List AppPermission) :=
  match r with
  | .ok output =>
    .ok ((permScan (jsSplit '\n' output) false []).insertionSort permLe)
  | .error _ => .ok []

/-- `TargetAppManager.addToHistory`: move the package to the front,
dropping any earlier occurrence, then keep the first 10 entries. -/
def addToHistory (packageName : String) (history : List String) :
    List String :=
  (packageName :: history.filter fun p => p != packageName).take 10

/-- The state `TargetAppManager` keeps in the editor's key-value stores:
the workspace-scoped current selection and the global recent history. -/
structure AppState where
  selected : Option String
  history : List String

/-- `TargetAppManager.setSelectedApp`: store the selection; the guard
`if (packageName)` is a JS truthiness test, so only a defined *and
nonempty* package name is pushed onto the history — `undefined` and the
empty string skip the history update. -/
def setSelectedApp (st : AppState) (packageName : Option String) : AppState :=
  { selected := packageName
    history :=
      match packageName with
      | some p => if p = "" then st.history else addToHistory p st.history
      | none => st.history }

/-- The stores before any selection was ever made: both keys absent
(`get<string[]>(...) || []` reads the absent history as `[]`). -/
def initialAppState : AppState := ⟨none, []⟩

/-- A sequence of selections of defined package names, applied in order
to the initial state. -/
def runSelections (ps : List String) : AppState :=
  ps.foldl (fun st p => setSelectedApp st (some p)) initialAppState

/-- One entry of the quick-pick list `TargetAppManager.pickApp` builds
(the fields of `vscode.QuickPickItem` the source sets). -/
structure QuickItem where
  label : String
  description : Option String := none
  isSeparator : Bool := false
  picked : Bool := false
deriving DecidableEq, Repr

/-- A `QuickPickItemKind.Separator` row. -/
def sepItem (l : String) : QuickItem := { label := l, isSeparator := true }

/-- The current-selection entry. -/
def currentItem (p : String) : QuickItem :=
  { label := "$(check) " ++ p, description := some "Currently Selected",
    picked := true }

/-- A recent-history entry. -/
def recentItem (p : String) : QuickItem :=
  { label := "$(history) " ++ p, description := some "Recent" }

/-- A device-installed entry. -/
def installedItem (p : String) : QuickItem :=
  { label := "$(device-mobile) " ++ p, description := some "Installed" }

/-- A workspace-discovered entry. -/
def workspaceItem (p : String) : QuickItem :=
  { label := "$(file-code) " ++ p, description := some "Workspace" }

/-- The manual free-text entry always offered last. -/
def manualItem : QuickItem := { label := "$(add) Enter Manually..." }

/-- Items pushed for the current selection (`if (current) { ... }`). -/
def currentChunk (current : Option String) : List QuickItem :=
  match current with
  | some c => [sepItem "Current Selection", currentItem c]
  | none => []

/-- Items pushed for the history (`if (history.length > 0)`; each entry
is kept only `if (pkg !== current)`). -/
def recentChunk (current : Option String) (history : List String) :
    List QuickItem :=
  if 0 < history.length then
    sepItem "Recent Apps" ::
      (history.filter fun p => some p != current).map recentItem
  else []

/-- Items pushed for the packages installed on the device.  `installed`
is `none` when no client/device was passed or `getInstalledPackages`
threw (the `catch` swallows the failure and pushes nothing); each entry
is kept only `if (pkg !== current && !history.includes(pkg))`. -/
def installedChunk (current : Option String) (history : List String)
    (installed : Option (List String)) : List QuickItem :=
  match installed with
  | some inst =>
    if 0 < inst.length then
      sepItem "Installed on Device" ::
        (inst.filter fun p =>
          some p != current && !(history.contains p)).map installedItem
    else []
  | none => []

/-- Items pushed for the workspace-discovered packages
(`if (discovered.length > 0)`; each entry is kept only
`if (pkg !== current && !history.includes(pkg))` — the source does not
check the installed list here). -/
def workspaceChunk (current : Option String) (history : List String)
    (discovered : List String) : List QuickItem :=
  if 0 < discovered.length then
    sepItem "Discovered in Workspace" ::
      (discovered.filter fun p =>
        some p != current && !(history.contains p)).map workspaceItem
  else []

/-- The trailing manual-entry section. -/
def manualChunk : List QuickItem := [sepItem "Other", manualItem]

/-- The full quick-pick list `TargetAppManager.pickApp` assembles, in the
order the source pushes the sections. -/
def pickAppItems (current : Option String) (history : List String)
    (installed : Option (List String)) (discovered : List String) :
    List QuickItem :=
  currentChunk current ++ recentChunk current history
    ++ installedChunk current history installed
    ++ workspaceChunk current history discovered ++ manualChunk

/-- The priority the spec assigns to each entry's source, read off the
entry's description; separators and the manual entry carry none. -/
def sourcePriority (it : QuickItem) : Option Nat :=
  if it.isSeparator then none
  else if it.description = some "Currently Selected" then some 0
  else if it.description = some "Recent" then some 1
  else if it.description = some "Installed" then some 2
  else if it.description = some "Workspace" then some 3
  else none

theorem addToHistory_nodup (p : String) (h : List String) (hh : h.Nodup) :
    (addToHistory p h).Nodup := by
  refine List.Nodup.sublist (List.take_sublist _ _) ?_
  refine List.nodup_cons.2 ⟨fun hmem => ?_, hh.filter _⟩
  have := List.of_mem_filter hmem
  simp at this

theorem addToHistory_length (p : String) (h : List String) :
    (addToHistory p h).length ≤ 10 :=
  List.length_take_le _ _

theorem addToHistory_head (p : String) (h : List String) :
    (addToHistory p h).head? = some p := rfl

/-- C3 counterexample: the empty string is a defined package name, yet
after the selection sequence `["com.a", ""]` the stored history is still
`["com.a"]` — its first element is not the most recently selected
package, because the source's truthiness guard `if (packageName)` skips
the history update for the falsy empty string. -/
theorem selection_history_empty_string_counterexample :
    (runSelections ["com.a", ""]).history = ["com.a"] ∧
    (runSelections ["com.a", ""]).history.head? ≠ some "" :=
  ⟨by decide, by decide⟩

/-- C3 (amended): after any sequence of selections of defined package
names the stored history has no duplicates and at most 10 entries; a
selection of a nonempty package name puts it first, while a selection of
the empty string (falsy, so `if (packageName)` skips `addToHistory`)
leaves the history unchanged. -/
theorem selection_history_invariant (ps : List String) :
    (runSelections ps).history.Nodup ∧
    (runSelections ps).history.length ≤ 10 ∧
    (∀ p : String, p ≠ "" →
      (runSelections (ps ++ [p])).history.head? = some p) ∧
    (runSelections (ps ++ [""])).history = (runSelections ps).history := by
  have step : ∀ (st : AppState) (a : String),
      (setSelectedApp st (some a)).history = st.history ∨
      (setSelectedApp st (some a)).history = addToHistory a st.history := by
    intro st a
    by_cases ha : a = "" <;> simp [setSelectedApp, ha]
  have main : ∀ (l : List String) (st : AppState),
      st.history.Nodup ∧ st.history.length ≤ 10 →
      (l.foldl (fun st p => setSelectedApp st (some p)) st).history.Nodup ∧
      (l.foldl (fun st p => setSelectedApp st (some p)) st).history.length
        ≤ 10 := by
    intro l
    induction l with
    | nil => exact fun _ h => h
    | cons a t ih =>
      intro st h
      refine ih _ ⟨?_, ?_⟩
      · rcases step st a with e | e
        · rw [e]; exact h.1
        · rw [e]; exact addToHistory_nodup a st.history h.1
      · rcases step st a with e | e
        · rw [e]; exact h.2
        · rw [e]; exact addToHistory_length a st.history
  have base : initialAppState.history.Nodup ∧
      initialAppState.history.length ≤ 10 :=
    ⟨List.nodup_nil, by simp [initialAppState]⟩
  refine ⟨(main ps initialAppState base).1, (main ps initialAppState base).2,
    fun p hp => ?_, ?_⟩
  · rw [runSelections, List.foldl_append]
    show (setSelectedApp (runSelections ps) (some p)).history.head? = some p
    have e : (setSelectedApp (runSelections ps) (some p)).history =
        addToHistory p (runSelections ps).history := by
      simp [setSelectedApp, hp]
    rw [e]
    exact addToHistory_head p _
  · rw [runSelections, List.foldl_append]
    show (setSelectedApp (runSelections ps) (some "")).history =
      (runSelections ps).history
    simp [setSelectedApp]

/-- C1: the device-list parser at the two row shapes of the repository's
own test suite.  The parsed records carry only the identifier and the
verbatim state token: the record type (mirroring the `ConnectedDevice`
interface) has no connection-medium and no model field, while the test
suite asserts `connectionType === 'wired'` / `'wireless'` and a `model`
value for exactly these inputs. -/
theorem getConnectedDevices_repo_test_rows :
    getConnectedDevices (Except.ok ("List of devices attached\n" ++
        "emulator-5554 device product:sdk_gphone64_arm64 model:sdk_gphone64_arm64 device:emulator64_arm64 transport_id:1"))
      = Except.ok [{ id := "emulator-5554", type := some "device" }] ∧
    getConnectedDevices (Except.ok ("List of devices attached\n" ++
        "192.168.1.5:5555 device product:bramble model:Pixel_4a__5G_ device:bramble transport_id:2"))
      = Except.ok [{ id := "192.168.1.5:5555", type := some "device" }] :=
  ⟨rfl, rfl⟩

/-- C2: the permission parser returns a value on every executor outcome —
no exception reaches the caller — and a caught internal exception yields
the empty list. -/
theorem getAppPermissions_no_exception_escapes :
    (∀ r : Except String String, ∃ l, getAppPermissions r = Except.ok l) ∧
    (∀ e : String, getAppPermissions (Except.error e) = Except.ok []) := by
  refine ⟨fun r => ?_, fun _ => rfl⟩
  cases r <;> exact ⟨_, rfl⟩

/-- C4 counterexample: on stdout `" x"` a successful `execute` returns
`"x"`, but stdout with only trailing whitespace removed is `" x"` — the
leading space is removed too, so the claim's description fails here. -/
theorem execute_not_trailing_only_strip :
    (execute "adb" "devices" (ProcResult.ok " x" "")).fst = Except.ok "x" ∧
    stripTrailingWS " x" = " x" ∧ ("x" : String) ≠ " x" :=
  ⟨rfl, rfl, by decide⟩

/-- C4 (amended): a successful `execute` returns standard output with
leading and trailing whitespace removed, whatever stderr carried. -/
theorem execute_success_trims_both_ends
    (adbPath command stdout stderr : String) :
    (execute adbPath command (ProcResult.ok stdout stderr)).fst =
      Except.ok (stripLeadingWS (stripTrailingWS stdout)) := rfl

/-- C8: when the tool exits successfully, stderr content never turns the
result into a failure — the trimmed stdout is returned exactly as with
empty stderr — and nonempty stderr is appended to the log. -/
theorem execute_stderr_only_logged (adbPath command stdout stderr : String) :
    (execute adbPath command (ProcResult.ok stdout stderr)).fst =
      (execute adbPath command (ProcResult.ok stdout "")).fst ∧
    (stderr ≠ "" →
      ("stderr: " ++ stderr) ∈
        (execute adbPath command (ProcResult.ok stdout stderr)).snd) := by
  refine ⟨rfl, fun h => ?_⟩
  simp [execute, h]

theorem execute_stderr_only_logged_witness :
    (execute "adb" "devices" (ProcResult.ok "ok out" "warning")).fst =
      (execute "adb" "devices" (ProcResult.ok "ok out" "")).fst ∧
    ("stderr: " ++ "warning") ∈
      (execute "adb" "devices" (ProcResult.ok "ok out" "warning")).snd :=
  ⟨(execute_stderr_only_logged "adb" "devices" "ok out" "warning").1,
   (execute_stderr_only_logged "adb" "devices" "ok out" "warning").2
     (by decide)⟩

/-- C5: when the tool's output is empty (trims to the empty string), the
pid lookup returns a value, not an error, and that value is falsy — the
caller's `if (!pid)` test reads it as the "not found" outcome. -/
theorem getPid_empty_output_is_absent (output : String)
    (h : jsTrim output = "") :
    ∃ v, getPidForPackage (Except.ok output) = some v ∧
      jsOptFalsy (some v) = true := by
  refine ⟨"", ?_, rfl⟩
  show some ((jsSplitWs (jsTrim output)).headD "") = some ""
  rw [h]; rfl

theorem getPid_empty_output_is_absent_witness :
    ∃ v, getPidForPackage (Except.ok "") = some v ∧
      jsOptFalsy (some v) = true :=
  getPid_empty_output_is_absent "" rfl

/-- C10: a caught execution failure makes the pid lookup return
`undefined` instead of re-throwing. -/
theorem getPid_execution_failure_swallowed (message : String) :
    getPidForPackage (Except.error message) = none := rfl

/-- C7: for every executor outcome the permission list is returned sorted
by permission name, whatever order the dump listed the lines in. -/
theorem getAppPermissions_output_sorted (r : Except String String) :
    ∃ l, getAppPermissions r = Except.ok l ∧ l.Pairwise permLe := by
  cases r with
  | error e => exact ⟨[], rfl, List.Pairwise.nil⟩
  | ok output => exact ⟨_, rfl, List.sorted_insertionSort permLe _⟩

theorem replaceFirstL_append (pat rest : List Char) (hne : pat ≠ []) :
    replaceFirstL pat (pat ++ rest) = rest := by
  cases pat with
  | nil => exact absurd rfl hne
  | cons c cs =>
    have hpre : (c :: cs).isPrefixOf (c :: (cs ++ rest)) = true := by
      rw [← List.cons_append]
      exact List.isPrefixOf_iff_prefix.2 (List.prefix_append _ _)
    show replaceFirstL (c :: cs) (c :: (cs ++ rest)) = rest
    simp only [replaceFirstL, hpre, if_true]
    rw [← List.cons_append]
    exact List.drop_left _ _

theorem jsReplaceFirst_cancel (p : String) :
    jsReplaceFirst "package:" ("package:" ++ p) = p := by
  apply String.ext
  show replaceFirstL "package:".data ("package:" ++ p).data = p.data
  rw [String.data_append]
  exact replaceFirstL_append _ _ (by decide)

theorem startsWithS_append (pre s : String) :
    startsWithS (pre ++ s) pre = true := by
  show pre.data.isPrefixOf (pre ++ s).data = true
  rw [String.data_append]
  exact List.isPrefixOf_iff_prefix.2 (List.prefix_append _ _)

theorem startsWithS_exists (s pre : String) (h : startsWithS s pre = true) :
    ∃ t : String, s = pre ++ t := by
  rcases List.isPrefixOf_iff_prefix.1 h with ⟨t, ht⟩
  exact ⟨⟨t⟩, String.ext (by rw [String.data_append]; exact ht.symm)⟩

theorem jsReplaceFirst_package (s : String)
    (h : startsWithS s "package:" = true) :
    "package:" ++ jsReplaceFirst "package:" s = s := by
  rcases startsWithS_exists s "package:" h with ⟨t, rfl⟩
  rw [jsReplaceFirst_cancel]

/-- C9: the installed-package listing keeps exactly the (trimmed) lines
starting with `package:`, strips that prefix, and returns the names
sorted; at the spec's example input it yields `["com.a", "com.b"]`. -/
theorem getInstalledPackages_spec :
    getInstalledPackages (Except.ok "package:com.a\npackage:com.b\n") =
      Except.ok ["com.a", "com.b"] ∧
    ∀ output : String, ∃ l,
      getInstalledPackages (Except.ok output) = Except.ok l ∧
      l.Pairwise strLeP ∧
      ∀ p : String, p ∈ l ↔ ∃ line ∈ jsSplit '\n' output,
        jsTrim line = "package:" ++ p := by
  refine ⟨rfl, fun output => ⟨_, rfl, List.sorted_insertionSort _ _, fun p => ?_⟩⟩
  rw [List.mem_insertionSort]
  constructor
  · intro hp
    rcases List.mem_map.1 hp with ⟨t, htf, rfl⟩
    rcases List.mem_filter.1 htf with ⟨htm, hts⟩
    rcases List.mem_map.1 htm with ⟨line, hline, rfl⟩
    exact ⟨line, hline, (jsReplaceFirst_package _ hts).symm⟩
  · rintro ⟨line, hline, heq⟩
    refine List.mem_map.2 ⟨"package:" ++ p, List.mem_filter.2
      ⟨List.mem_map.2 ⟨line, hline, heq⟩, startsWithS_append _ _⟩,
      jsReplaceFirst_cancel p⟩

theorem filterMap_priority_map (mk : String → QuickItem) (k : Nat)
    (hmk : ∀ p, sourcePriority (mk p) = some k) (l : List String) :
    (l.map mk).filterMap sourcePriority = l.map fun _ => k := by
  induction l with
  | nil => rfl
  | cons p t ih =>
    rw [List.map_cons, List.filterMap_cons]
    simp only [hmk p, List.map_cons]
    exact congrArg (k :: ·) ih

theorem mem_filterMap_currentChunk (cur : Option String) :
    ∀ x ∈ (currentChunk cur).filterMap sourcePriority, x = 0 := by
  intro x hx
  cases cur with
  | none => simp [currentChunk] at hx
  | some c =>
    have e : (currentChunk (some c)).filterMap sourcePriority = [0] := rfl
    rw [e] at hx
    simpa using hx

theorem mem_filterMap_recentChunk (cur : Option String) (hist : List String) :
    ∀ x ∈ (recentChunk cur hist).filterMap sourcePriority, x = 1 := by
  intro x hx
  unfold recentChunk at hx
  split at hx
  · rw [List.filterMap_cons] at hx
    simp only [show sourcePriority (sepItem "Recent Apps") = none from rfl] at hx
    rw [filterMap_priority_map recentItem 1 (fun _ => rfl)] at hx
    rcases List.mem_map.1 hx with ⟨p, _, h⟩
    exact h.symm
  · simp at hx

theorem mem_filterMap_installedChunk (cur : Option String) (hist : List String)
    (inst : Option (List String)) :
    ∀ x ∈ (installedChunk cur hist inst).filterMap sourcePriority, x = 2 := by
  intro x hx
  cases inst with
  | none => simp [installedChunk] at hx
  | some l =>
    simp only [installedChunk] at hx
    split at hx
    · rw [List.filterMap_cons] at hx
      simp only [show sourcePriority (sepItem "Installed on Device") = none
        from rfl] at hx
      rw [filterMap_priority_map installedItem 2 (fun _ => rfl)] at hx
      rcases List.mem_map.1 hx with ⟨p, _, h⟩
      exact h.symm
    · simp at hx

theorem mem_filterMap_workspaceChunk (cur : Option String)
    (hist : List String) (disc : List String) :
    ∀ x ∈ (workspaceChunk cur hist disc).filterMap sourcePriority, x = 3 := by
  intro x hx
  unfold workspaceChunk at hx
  split at hx
  · rw [List.filterMap_cons] at hx
    simp only [show sourcePriority (sepItem "Discovered in Workspace") = none
      from rfl] at hx
    rw [filterMap_priority_map workspaceItem 3 (fun _ => rfl)] at hx
    rcases List.mem_map.1 hx with ⟨p, _, h⟩
    exact h.symm
  · simp at hx

theorem pairwise_le_append_bound {l₁ l₂ : List Nat} (k : Nat)
    (h₁ : ∀ x ∈ l₁, x ≤ k) (h₂ : ∀ x ∈ l₂, k ≤ x)
    (p₁ : l₁.Pairwise (· ≤ ·)) (p₂ : l₂.Pairwise (· ≤ ·)) :
    (l₁ ++ l₂).Pairwise (· ≤ ·) :=
  List.pairwise_append.2 ⟨p₁, p₂, fun a ha b hb => le_trans (h₁ a ha) (h₂ b hb)⟩

theorem pairwise_le_of_const {l : List Nat} (k : Nat) (h : ∀ x ∈ l, x = k) :
    l.Pairwise (· ≤ ·) := by
  induction l with
  | nil => exact List.Pairwise.nil
  | cons a t ih =>
    refine List.Pairwise.cons (fun b hb => ?_)
      (ih fun x hx => h x (List.mem_cons_of_mem a hx))
    rw [h a (List.mem_cons_self a t), h b (List.mem_cons_of_mem a hb)]

theorem pickAppItems_classify (cur : Option String) (hist : List String)
    (inst : Option (List String)) (disc : List String) :
    ∀ it ∈ pickAppItems cur hist inst disc,
      (∃ s, it = sepItem s) ∨ it = manualItem ∨
      (∃ c, cur = some c ∧ it = currentItem c) ∨
      (∃ p, p ∈ hist ∧ some p ≠ cur ∧ it = recentItem p) ∨
      (∃ l p, inst = some l ∧ p ∈ l ∧ some p ≠ cur ∧ p ∉ hist ∧
        it = installedItem p) ∨
      (∃ p, p ∈ disc ∧ some p ≠ cur ∧ p ∉ hist ∧ it = workspaceItem p) := by
  intro it hit
  simp only [pickAppItems, List.mem_append] at hit
  rcases hit with ((((h | h) | h) | h) | h)
  · cases cur with
    | none => simp [currentChunk] at h
    | some c =>
      simp only [currentChunk, List.mem_cons, List.mem_singleton] at h
      rcases h with rfl | rfl | h
      · exact Or.inl ⟨_, rfl⟩
      · exact Or.inr (Or.inr (Or.inl ⟨c, rfl, rfl⟩))
      · simp at h
  · unfold recentChunk at h
    split at h
    · rcases List.mem_cons.1 h with rfl | h
      · exact Or.inl ⟨_, rfl⟩
      · rcases List.mem_map.1 h with ⟨p, hp, rfl⟩
        rcases List.mem_filter.1 hp with ⟨hmem, hcond⟩
        refine Or.inr (Or.inr (Or.inr (Or.inl ⟨p, hmem, ?_, rfl⟩)))
        simpa using hcond
    · simp at h
  · cases inst with
    | none => simp [installedChunk] at h
    | some l =>
      simp only [installedChunk] at h
      split at h
      · rcases List.mem_cons.1 h with rfl | h
        · exact Or.inl ⟨_, rfl⟩
        · rcases List.mem_map.1 h with ⟨p, hp, rfl⟩
          rcases List.mem_filter.1 hp with ⟨hmem, hcond⟩
          have hc : some p ≠ cur ∧ p ∉ hist := by simpa using hcond
          exact Or.inr (Or.inr (Or.inr (Or.inr (Or.inl
            ⟨l, p, rfl, hmem, hc.1, hc.2, rfl⟩))))
      · simp at h
  · unfold workspaceChunk at h
    split at h
    · rcases List.mem_cons.1 h with rfl | h
      · exact Or.inl ⟨_, rfl⟩
      · rcases List.mem_map.1 h with ⟨p, hp, rfl⟩
        rcases List.mem_filter.1 hp with ⟨hmem, hcond⟩
        have hc : some p ≠ cur ∧ p ∉ hist := by simpa using hcond
        exact Or.inr (Or.inr (Or.inr (Or.inr (Or.inr
          ⟨p, hmem, hc.1, hc.2, rfl⟩))))
    · simp at h
  · simp only [manualChunk, List.mem_cons, List.mem_singleton] at h
    rcases h with rfl | rfl | h
    · exact Or.inl ⟨_, rfl⟩
    · exact Or.inr (Or.inl rfl)
    · simp at h

/-- C6 counterexample: with no current selection, empty history,
`["com.a"]` installed on the device and `["com.a"]` discovered in the
workspace, the assembled list contains the package both as an installed
entry and as a workspace entry — the lower-priority workspace entry equal
to a higher-priority installed entry is not omitted. -/
theorem pickApp_duplicate_across_installed_and_workspace :
    installedItem "com.a" ∈ pickAppItems none [] (some ["com.a"]) ["com.a"] ∧
    workspaceItem "com.a" ∈ pickAppItems none [] (some ["com.a"]) ["com.a"] :=
  ⟨by decide, by decide⟩

/-- C6 (amended): the four sources are merged in priority order (entry
priorities are nondecreasing along the list), history entries are
deduplicated against the current selection, and installed and workspace
entries are deduplicated against the current selection and the history —
but a workspace entry is never deduplicated against the installed
entries: it appears whenever it differs from the current selection and
the history. -/
theorem pickApp_merge_dedup (current : Option String) (history : List String)
    (installed : Option (List String)) (discovered : List String) :
    ((pickAppItems current history installed discovered).filterMap
        sourcePriority).Pairwise (· ≤ ·) ∧
    (∀ it ∈ pickAppItems current history installed discovered,
      it.description = some "Recent" →
        ∃ p, p ∈ history ∧ some p ≠ current ∧ it = recentItem p) ∧
    (∀ it ∈ pickAppItems current history installed discovered,
      it.description = some "Installed" →
        ∃ l p, installed = some l ∧ p ∈ l ∧ some p ≠ current ∧
          p ∉ history ∧ it = installedItem p) ∧
    (∀ it ∈ pickAppItems current history installed discovered,
      it.description = some "Workspace" →
        ∃ p, p ∈ discovered ∧ some p ≠ current ∧ p ∉ history ∧
          it = workspaceItem p) ∧
    (∀ p ∈ discovered, some p ≠ current → p ∉ history →
      workspaceItem p ∈ pickAppItems current history installed discovered) := by
  refine ⟨?_, ?_, ?_, ?_, ?_⟩
  · simp only [pickAppItems, List.filterMap_append]
    have m1 := mem_filterMap_currentChunk current
    have m2 := mem_filterMap_recentChunk current history
    have m3 := mem_filterMap_installedChunk current history installed
    have m4 := mem_filterMap_workspaceChunk current history discovered
    have m5 : manualChunk.filterMap sourcePriority = [] := rfl
    rw [m5, List.append_nil]
    refine pairwise_le_append_bound 3 ?_ ?_
      (pairwise_le_append_bound 2 ?_ ?_
        (pairwise_le_append_bound 1 ?_ ?_
          (pairwise_le_of_const 0 m1) (pairwise_le_of_const 1 m2))
        (pairwise_le_of_const 2 m3))
      (pairwise_le_of_const 3 m4)
    · intro x hx
      rcases List.mem_append.1 hx with hx | hx
      · rcases List.mem_append.1 hx with hx | hx
        · rw [m1 x hx]; omega
        · rw [m2 x hx]; omega
      · rw [m3 x hx]; omega
    · intro x hx; rw [m4 x hx]
    · intro x hx
      rcases List.mem_append.1 hx with hx | hx
      · rw [m1 x hx]; omega
      · rw [m2 x hx]; omega
    · intro x hx; rw [m3 x hx]
    · intro x hx; rw [m1 x hx]; omega
    · intro x hx; rw [m2 x hx]
  · intro it hit hdesc
    rcases pickAppItems_classify current history installed discovered it hit
      with ⟨s, rfl⟩ | rfl | ⟨c, _, rfl⟩ | ⟨p, h1, h2, rfl⟩ |
        ⟨l, p, _, _, _, _, rfl⟩ | ⟨p, _, _, _, rfl⟩
    · simp [sepItem] at hdesc
    · simp [manualItem] at hdesc
    · simp [currentItem] at hdesc
    · exact ⟨p, h1, h2, rfl⟩
    · simp [installedItem] at hdesc
    · simp [workspaceItem] at hdesc
  · intro it hit hdesc
    rcases pickAppItems_classify current history installed discovered it hit
      with ⟨s, rfl⟩ | rfl | ⟨c, _, rfl⟩ | ⟨p, _, _, rfl⟩ |
        ⟨l, p, h1, h2, h3, h4, rfl⟩ | ⟨p, _, _, _, rfl⟩
    · simp [sepItem] at hdesc
    · simp [manualItem] at hdesc
    · simp [currentItem] at hdesc
    · simp [recentItem] at hdesc
    · exact ⟨l, p, h1, h2, h3, h4, rfl⟩
    · simp [workspaceItem] at hdesc
  · intro it hit hdesc
    rcases pickAppItems_classify current history installed discovered it hit
      with ⟨s, rfl⟩ | rfl | ⟨c, _, rfl⟩ | ⟨p, _, _, rfl⟩ |
        ⟨l, p, _, _, _, _, rfl⟩ | ⟨p, h1, h2, h3, rfl⟩
    · simp [sepItem] at hdesc
    · simp [manualItem] at hdesc
    · simp [currentItem] at hdesc
    · simp [recentItem] at hdesc
    · simp [installedItem] at hdesc
    · exact ⟨p, h1, h2, h3, rfl⟩
  · intro p hp hcur hhist
    refine List.mem_append.2 (Or.inl (List.mem_append.2 (Or.inr ?_)))
    unfold workspaceChunk
    rw [if_pos (List.length_pos_of_mem hp)]
    exact List.mem_cons.2 (Or.inr (List.mem_map.2
      ⟨p, List.mem_filter.2 ⟨hp, by simp [hcur, hhist]⟩, rfl⟩))
